import Mathlib

/-!
Shallow embedding of the digest-type machinery generated by the
`hash_trait_impls!` and `hash_type!` macros of `src/internal_macros.rs`
(bitcoin_hashes).  A generated type `Hash` wraps a fixed-size byte array
`[u8; NBITS / 8]`; the macro wires up construction, conversion, comparison,
indexing and hex parsing/formatting for it.
-/

namespace BitcoinHashes

/-- A byte, the Rust `u8`. -/
abbrev Byte := Fin 256

/-- The inner array type `[u8; n]`: a list of bytes of length exactly `n`. -/
abbrev Inner (n : Nat) := { l : List Byte // l.length = n }

/-- The generated digest type: `pub struct Hash([u8; NBITS / 8])`, a newtype
around the fixed-size byte array.  `n` is the byte length `NBITS / 8`. -/
structure Hash (n : Nat) where
  arr : Inner n
deriving DecidableEq

/-- The associated constant `LEN: usize = NBITS / 8`. -/
def Hash.LEN (NBITS : Nat) : Nat := NBITS / 8

/-- The error type of `crate::Hash::from_slice`: `Error::InvalidLength(expected, actual)`. -/
inductive Error where
  | InvalidLength (expected actual : Nat)
deriving DecidableEq

/-- `fn internal_new(arr: [u8; NBITS / 8]) -> Self { Hash(arr) }`. -/
def Hash.internal_new {n : Nat} (a : Inner n) : Hash n := ⟨a⟩

/-- `fn into_inner(self) -> Self::Inner { self.0 }`. -/
def Hash.into_inner {n : Nat} (x : Hash n) : Inner n := x.arr

/-- `fn as_inner(&self) -> &Self::Inner { &self.0 }` (value semantics of the borrow). -/
def Hash.as_inner {n : Nat} (x : Hash n) : Inner n := x.arr

/-- `fn from_inner(inner: Self::Inner) -> Self { Self::internal_new(inner) }`. -/
def Hash.from_inner {n : Nat} (a : Inner n) : Hash n := Hash.internal_new a

/-- `fn all_zeros() -> Self { Hash::internal_new([0x00; NBITS / 8]) }`. -/
def Hash.all_zeros (n : Nat) : Hash n :=
  Hash.internal_new ⟨List.replicate n (0 : Byte), by simp⟩

/-- The semantics of `ret.copy_from_slice(sl)` for equal-length slices: the
destination bytes are replaced by the source bytes (any surplus destination
tail, empty when the lengths agree, is kept). -/
def copyFromSlice (dst src : List Byte) : List Byte :=
  src ++ dst.drop src.length

/-- `fn from_slice(sl: &[u8]) -> Result<Hash, Error>`: rejects any slice whose
length differs from `NBITS / 8` with `Error::InvalidLength(Self::LEN, sl.len())`;
otherwise copies the bytes into a fresh zeroed buffer and wraps it. -/
def Hash.from_slice (n : Nat) (sl : List Byte) : Except Error (Hash n) :=
  if h : sl.length ≠ n then
    Except.error (Error.InvalidLength n sl.length)
  else
    Except.ok (Hash.internal_new ⟨copyFromSlice (List.replicate n 0) sl, by
      simp only [copyFromSlice, List.length_append, List.length_drop,
        List.length_replicate]
      omega⟩)

/-- `fn engine() -> Self::Engine { Self::internal_engine() }`, where
`internal_engine` returns `Default::default()`; the default engine value is an
external collaborator, passed here explicitly. -/
def Hash.engine {Engine : Type} (internal_engine_default : Engine) : Engine :=
  internal_engine_default

/-- `fn from_engine(e: HashEngine) -> Hash { from_engine(e) }`: finalization
delegates to the algorithm-supplied free function, passed here explicitly. -/
def Hash.from_engine {n : Nat} {Engine : Type} (fe : Engine → Hash n) (e : Engine) : Hash n :=
  fe e

theorem copyFromSlice_of_length_eq (dst src : List Byte) (h : dst.length = src.length) :
    copyFromSlice dst src = src := by
  simp [copyFromSlice, List.drop_eq_nil_of_le, h.le]

/-- C1: the conversions between a digest and its raw byte array round-trip in
both directions: `from_inner (into_inner x) = x` and
`into_inner (from_inner b) = b`. -/
theorem inner_roundtrip (n : Nat) (x : Hash n) (b : Inner n) :
    Hash.from_inner (Hash.into_inner x) = x ∧
    Hash.into_inner (Hash.from_inner b) = b := by
  refine ⟨?_, rfl⟩
  cases x
  rfl

/-- C2: `from_slice` fails with `InvalidLength(LEN, sl.len())` exactly on the
slices whose length differs from `LEN`, and succeeds only on length `LEN`. -/
theorem from_slice_invalid_length (n : Nat) (sl : List Byte) :
    (sl.length ≠ n →
      Hash.from_slice n sl = Except.error (Error.InvalidLength n sl.length)) ∧
    (∀ h : Hash n, Hash.from_slice n sl = Except.ok h → sl.length = n) := by
  constructor
  · intro hne
    simp [Hash.from_slice, hne]
  · intro h hok
    by_contra hne
    simp [Hash.from_slice, hne] at hok

theorem from_slice_invalid_length_witness :
    Hash.from_slice 2 [(5 : Byte)] = Except.error (Error.InvalidLength 2 1) :=
  (from_slice_invalid_length 2 [(5 : Byte)]).1 (by decide)

/-- C4: `all_zeros` wraps an array of exactly `n` zero bytes. -/
theorem all_zeros_spec (n : Nat) :
    (Hash.all_zeros n).into_inner.val = List.replicate n (0 : Byte) ∧
    (Hash.all_zeros n).into_inner.val.length = n ∧
    ∀ b ∈ (Hash.all_zeros n).into_inner.val, b = (0 : Byte) := by
  refine ⟨rfl, by simp [Hash.all_zeros, Hash.into_inner, Hash.internal_new], ?_⟩
  intro b hb
  exact List.eq_of_mem_replicate hb

/-- C8: on a slice of the correct length `from_slice` succeeds, and the inner
byte array of the produced digest is an owned copy of exactly the input bytes. -/
theorem from_slice_ok (n : Nat) (sl : List Byte) (h : sl.length = n) :
    Hash.from_slice n sl = Except.ok (Hash.from_inner ⟨sl, h⟩) ∧
    (Hash.from_inner ⟨sl, h⟩).as_inner.val = sl := by
  refine ⟨?_, rfl⟩
  have hcond : ¬ sl.length ≠ n := by simp [h]
  simp only [Hash.from_slice]
  rw [dif_neg hcond]
  apply congrArg
  apply congrArg
  apply Subtype.ext
  simpa using copyFromSlice_of_length_eq (List.replicate n 0) sl (by simp [h])

theorem from_slice_ok_witness :
    Hash.from_slice 2 [(1 : Byte), (2 : Byte)] =
      Except.ok (Hash.from_inner ⟨[(1 : Byte), (2 : Byte)], rfl⟩) ∧
    (Hash.from_inner (n := 2) ⟨[(1 : Byte), (2 : Byte)], rfl⟩).as_inner.val =
      [(1 : Byte), (2 : Byte)] :=
  from_slice_ok 2 [(1 : Byte), (2 : Byte)] rfl

/-- The Rust `Ord` on `u8`: trichotomous byte comparison. -/
def byteCompare (a b : Byte) : Ordering :=
  if a < b then Ordering.lt else if b < a then Ordering.gt else Ordering.eq

/-- The derived `Ord` on `[u8; N]` (hence, via the single-field derive on
`Hash`, on the digest type): element-wise lexicographic comparison. -/
def listCompare : List Byte → List Byte → Ordering
  | [], [] => Ordering.eq
  | [], _ :: _ => Ordering.lt
  | _ :: _, [] => Ordering.gt
  | a :: l1, b :: l2 =>
    match byteCompare a b with
    | Ordering.eq => listCompare l1 l2
    | o => o

/-- The derived `Ord`/`PartialOrd` on `Hash`: compares the wrapped arrays. -/
def Hash.cmp {n : Nat} (x y : Hash n) : Ordering :=
  listCompare x.arr.val y.arr.val

/-- The strict order `x < y` induced by the derived `Ord` on `Hash`. -/
def Hash.ltb {n : Nat} (x y : Hash n) : Bool :=
  Hash.cmp x y == Ordering.lt

/-- The derived `PartialEq` on `[u8; N]`: element-wise equality of the bytes. -/
def bytesEqb : List Byte → List Byte → Bool
  | [], [] => true
  | a :: l1, b :: l2 => a == b && bytesEqb l1 l2
  | _, _ => false

/-- The derived `PartialEq` on `Hash`: compares the wrapped arrays. -/
def Hash.eqb {n : Nat} (x y : Hash n) : Bool :=
  bytesEqb x.arr.val y.arr.val

theorem bytesEqb_iff : ∀ l1 l2 : List Byte, bytesEqb l1 l2 = true ↔ l1 = l2 := by
  intro l1
  induction l1 with
  | nil => intro l2; cases l2 <;> simp [bytesEqb]
  | cons a t ih =>
    intro l2
    cases l2 with
    | nil => simp [bytesEqb]
    | cons b t2 => simp [bytesEqb, ih t2]

theorem listCompare_lt_iff :
    ∀ l1 l2 : List Byte, listCompare l1 l2 = Ordering.lt ↔ List.Lex (· < ·) l1 l2 := by
  intro l1
  induction l1 with
  | nil =>
    intro l2
    cases l2 with
    | nil =>
      simp only [listCompare]
      exact ⟨fun h => absurd h (by decide), fun h => by cases h⟩
    | cons b t2 =>
      simp only [listCompare]
      exact ⟨fun _ => List.Lex.nil, fun _ => trivial⟩
  | cons a t ih =>
    intro l2
    cases l2 with
    | nil =>
      simp only [listCompare]
      exact ⟨fun h => absurd h (by decide), fun h => by cases h⟩
    | cons b t2 =>
      rcases lt_trichotomy a b with hab | hab | hab
      · simp only [listCompare, byteCompare, if_pos hab]
        exact ⟨fun _ => List.Lex.rel hab, fun _ => trivial⟩
      · subst hab
        simp only [listCompare, byteCompare, if_neg (lt_irrefl a)]
        constructor
        · intro h
          exact List.Lex.cons ((ih t2).mp h)
        · intro h
          cases h with
          | cons h2 => exact (ih t2).mpr h2
          | rel hr => exact absurd hr (lt_irrefl a)
      · have h1 : ¬ a < b := not_lt_of_gt hab
        simp only [listCompare, byteCompare, if_neg h1, if_pos hab]
        constructor
        · intro h
          exact absurd h (by decide)
        · intro h
          cases h with
          | cons _ => exact absurd rfl (ne_of_gt hab)
          | rel hr => exact absurd hr h1

theorem ordering_beq_iff (o p : Ordering) : (o == p) = true ↔ o = p := by
  cases o <;> cases p <;> decide

/-- C5: the derived strict order on digests holds exactly when the raw byte
sequences compare lexicographically less, and the derived equality holds
exactly when the raw byte contents are equal (equivalently, the digests are
equal). -/
theorem ord_eq_lex_bytes (n : Nat) (x y : Hash n) :
    (Hash.ltb x y = true ↔ List.Lex (· < ·) x.into_inner.val y.into_inner.val) ∧
    (Hash.eqb x y = true ↔ x.into_inner.val = y.into_inner.val) ∧
    (Hash.eqb x y = true ↔ x = y) := by
  have hbytes : Hash.eqb x y = true ↔ x.into_inner.val = y.into_inner.val :=
    bytesEqb_iff x.arr.val y.arr.val
  refine ⟨?_, hbytes, ?_⟩
  · rw [Hash.ltb, ordering_beq_iff, Hash.cmp]
    exact listCompare_lt_iff x.arr.val y.arr.val
  · rw [hbytes]
    constructor
    · intro hv
      cases x with
      | mk a =>
        cases y with
        | mk b =>
          cases a
          cases b
          simp only [Hash.into_inner] at hv
          simp_all
    · intro hxy
      rw [hxy]

/-- The Rust slice point-indexing semantics: the element when the index is in
bounds and a panic (here: none) otherwise. -/
def sliceGet (l : List Byte) (i : Nat) : Option Byte :=
  l[i]?

/-- The Rust slice range-indexing semantics: the sub-slice from i to j when
i and j are in bounds and in order, and a panic (here: none) otherwise. -/
def sliceRange (l : List Byte) (i j : Nat) : Option (List Byte) :=
  if i ≤ j ∧ j ≤ l.length then some ((l.take j).drop i) else none

/-- The point form of the generated Index impl:
fn index(&self, index: I) -> &Self::Output delegates to &self.0[index]. -/
def Hash.index {n : Nat} (x : Hash n) (i : Nat) : Option Byte :=
  sliceGet x.arr.val i

/-- The range form of the generated Index impl, x[i..j]. -/
def Hash.indexRange {n : Nat} (x : Hash n) (i j : Nat) : Option (List Byte) :=
  sliceRange x.arr.val i j

/-- C6: indexing a digest agrees with indexing its raw byte array directly,
for point indices and for ranges, and it is out of range (a panic) exactly
when indexing the byte array is. -/
theorem index_eq_inner_index (n : Nat) (x : Hash n) (i j : Nat) :
    Hash.index x i = sliceGet x.as_inner.val i ∧
    Hash.indexRange x i j = sliceRange x.as_inner.val i j ∧
    (Hash.index x i = none ↔ n ≤ i) := by
  refine ⟨rfl, rfl, ?_⟩
  rw [Hash.index, sliceGet, List.getElem?_eq_none_iff, x.arr.property]

/-- C7: the associated constant LEN is NBITS / 8; every digest value wraps
exactly LEN bytes, the length is the same for all values of the type, and
(for the bit-widths of the generated types, all at least 8) it is nonzero. -/
theorem len_invariant (NBITS : Nat) (h8 : 8 ≤ NBITS)
    (x y : Hash (Hash.LEN NBITS)) :
    Hash.LEN NBITS = NBITS / 8 ∧
    x.into_inner.val.length = Hash.LEN NBITS ∧
    x.into_inner.val.length = y.into_inner.val.length ∧
    0 < Hash.LEN NBITS := by
  refine ⟨rfl, x.arr.property, ?_, ?_⟩
  · exact x.arr.property.trans y.arr.property.symm
  · rw [Hash.LEN]
    omega

theorem len_invariant_witness :
    Hash.LEN 256 = 256 / 8 ∧
    (Hash.all_zeros (Hash.LEN 256)).into_inner.val.length = Hash.LEN 256 ∧
    (Hash.all_zeros (Hash.LEN 256)).into_inner.val.length =
      (Hash.all_zeros (Hash.LEN 256)).into_inner.val.length ∧
    0 < Hash.LEN 256 :=
  len_invariant 256 (by decide) (Hash.all_zeros (Hash.LEN 256))
    (Hash.all_zeros (Hash.LEN 256))

/-- C9: every operation other than from_slice and text parsing is total:
engine, from_engine, into_inner, as_inner, from_inner, all_zeros and the
comparisons always produce a value, with no error branch in their result
type. -/
theorem ops_total (n : Nat) (E : Type) (d : E) (fe : E → Hash n) (e : E)
    (x y : Hash n) (b : Inner n) :
    (∃ v, Hash.engine d = v) ∧
    (∃ v, Hash.from_engine fe e = v) ∧
    (∃ v, Hash.into_inner x = v) ∧
    (∃ v, Hash.as_inner x = v) ∧
    (∃ v, Hash.from_inner b = v) ∧
    (∃ v, Hash.all_zeros n = v) ∧
    (∃ o, Hash.cmp x y = o) ∧
    (∃ r, Hash.eqb x y = r) ∧
    (∃ r, Hash.ltb x y = r) :=
  ⟨⟨_, rfl⟩, ⟨_, rfl⟩, ⟨_, rfl⟩, ⟨_, rfl⟩, ⟨_, rfl⟩, ⟨_, rfl⟩, ⟨_, rfl⟩,
    ⟨_, rfl⟩, ⟨_, rfl⟩⟩

/-- Modelled from the spec: the parse error of the hex codec (a separate crate,
Error type, not under src/): textual parsing fails on malformed hex or on a
decoded length different from LEN. -/
inductive HexError where
  | Malformed
  | InvalidLength (expected got : Nat)
deriving DecidableEq

/-- Modelled from the spec: a hex digit value rendered as a lowercase
hexadecimal character. -/
def valToHexDigit (d : Fin 16) : Char :=
  if d.val < 10 then Char.ofNat (48 + d.val) else Char.ofNat (87 + d.val)

/-- Modelled from the spec: the numeric value of a hexadecimal character
(canonical lowercase), none for any other character. -/
def hexDigitToVal (c : Char) : Option (Fin 16) :=
  if h : 48 ≤ c.toNat ∧ c.toNat ≤ 57 then some ⟨c.toNat - 48, by omega⟩
  else if h2 : 97 ≤ c.toNat ∧ c.toNat ≤ 102 then some ⟨c.toNat - 87, by omega⟩
  else none

/-- Modelled from the spec: one byte rendered as two lowercase hex
characters, high nibble first. -/
def byteToHexChars (b : Byte) : List Char :=
  [valToHexDigit ⟨b.val / 16, by omega⟩, valToHexDigit ⟨b.val % 16, by omega⟩]

/-- Modelled from the spec: a byte sequence rendered as a lowercase hex
character sequence. -/
def bytesToHexChars : List Byte → List Char
  | [] => []
  | b :: bs => byteToHexChars b ++ bytesToHexChars bs

/-- Modelled from the spec: the hex rendering of a digest (hex_fmt_impl!, not
under src/): the storage bytes, reversed iff DISPLAY_BACKWARD is set, each as
two lowercase hex characters. -/
def hexChars {n : Nat} (backward : Bool) (x : Hash n) : List Char :=
  bytesToHexChars (if backward then x.arr.val.reverse else x.arr.val)

/-- Modelled from the spec: the hex rendering of a digest as a string. -/
def formatHex {n : Nat} (backward : Bool) (x : Hash n) : String :=
  ⟨hexChars backward x⟩

/-- Modelled from the spec: hex decoding of a character sequence into bytes,
two characters per byte; fails on a non-hex character or an odd-length
input. -/
def decodeHexChars : List Char → Option (List Byte)
  | [] => some []
  | [_] => none
  | c1 :: c2 :: rest =>
    match hexDigitToVal c1, hexDigitToVal c2, decodeHexChars rest with
    | some hi, some lo, some bs => some (⟨16 * hi.val + lo.val, by omega⟩ :: bs)
    | _, _, _ => none

/-- Modelled from the spec: hex::FromHex::from_hex for a digest type (not
under src/): decodes the string as hex, requires exactly LEN decoded bytes,
and reverses the decoded bytes to storage order iff DISPLAY_BACKWARD is
set. -/
def from_hex (n : Nat) (backward : Bool) (s : String) : Except HexError (Hash n) :=
  match decodeHexChars s.data with
  | none => Except.error HexError.Malformed
  | some bs =>
    if h : bs.length = n then
      Except.ok (Hash.from_inner ⟨if backward then bs.reverse else bs, by
        cases backward <;> simp [h]⟩)
    else
      Except.error (HexError.InvalidLength n bs.length)

/-- The generated FromStr impl: fn from_str(s: &str) delegates to
hex::FromHex::from_hex(s), with the error type of the hex codec as its error type. -/
def Hash.from_str (n : Nat) (backward : Bool) (s : String) : Except HexError (Hash n) :=
  from_hex n backward s

theorem hexDigitToVal_valToHexDigit (d : Fin 16) :
    hexDigitToVal (valToHexDigit d) = some d := by
  revert d
  decide

theorem decodeHexChars_byte (b : Byte) (cs : List Char) :
    decodeHexChars (byteToHexChars b ++ cs) =
      (decodeHexChars cs).map (fun bs => b :: bs) := by
  have h1 : byteToHexChars b ++ cs =
      valToHexDigit ⟨b.val / 16, by omega⟩ ::
        valToHexDigit ⟨b.val % 16, by omega⟩ :: cs := rfl
  rw [h1]
  simp only [decodeHexChars, hexDigitToVal_valToHexDigit]
  cases hrest : decodeHexChars cs with
  | none => rfl
  | some bs =>
    have hb : (⟨16 * (b.val / 16) + b.val % 16, by omega⟩ : Byte) = b := by
      apply Fin.ext
      simp [Nat.div_add_mod]
    show some ((⟨16 * (b.val / 16) + b.val % 16, by omega⟩ : Byte) :: bs) =
      Option.map (fun bs => b :: bs) (some bs)
    rw [hb]
    rfl

theorem decodeHexChars_bytesToHexChars (l : List Byte) :
    decodeHexChars (bytesToHexChars l) = some l := by
  induction l with
  | nil => rfl
  | cons b bs ih =>
    rw [bytesToHexChars, decodeHexChars_byte, ih]
    rfl

theorem from_inner_eq_self {n : Nat} (x : Hash n) (l : List Byte) (p : l.length = n)
    (h : l = x.arr.val) : Hash.from_inner ⟨l, p⟩ = x := by
  cases x with
  | mk a => exact congrArg Hash.mk (Subtype.ext h)

/-- C3: parsing the hex rendering of a digest yields the digest back, and the
byte sequence encoded in the rendering is the storage order reversed when
DISPLAY_BACKWARD is set and the storage order itself when it is not. -/
theorem hex_roundtrip (n : Nat) (w : Bool) (x : Hash n) :
    from_hex n w (formatHex w x) = Except.ok x ∧
    decodeHexChars (hexChars w x) =
      some (if w then x.into_inner.val.reverse else x.into_inner.val) := by
  have hdec : decodeHexChars (hexChars w x) =
      some (if w then x.arr.val.reverse else x.arr.val) := by
    rw [hexChars]
    cases w
    · exact decodeHexChars_bytesToHexChars x.arr.val
    · exact decodeHexChars_bytesToHexChars x.arr.val.reverse
  refine ⟨?_, hdec⟩
  have hs : (formatHex w x).data = hexChars w x := rfl
  have hlen : (if w then x.arr.val.reverse else x.arr.val).length = n := by
    cases w <;> simp [x.arr.property]
  simp only [from_hex, hs, hdec]
  rw [dif_pos hlen]
  apply congrArg
  cases w
  · exact from_inner_eq_self x _ _ (by simp)
  · exact from_inner_eq_self x _ _ (by simp)

/-- C10: the generated string-parsing interface is exactly hex decoding: for
every input string, FromStr::from_str returns the same result as
hex::FromHex::from_hex, and its error type is the error type of the hex codec. -/
theorem from_str_eq_from_hex (n : Nat) (w : Bool) (s : String) :
    Hash.from_str n w s = from_hex n w s :=
  rfl
